import Mathlib

/-!
Verification of the `tiny-bloomfilter` library (`src/index.ts`).

Shallow embedding conventions:
* JavaScript `bigint` values that are non-negative throughout (the filter
  state, hash values after the sign fix-up, bitmasks) are `Nat`.
* The external collaborator `XXH64(buf, 0)` (package `xxh3-ts`) is out of
  scope of the repository; an item is therefore represented by the 64-bit
  hash value the collaborator returns for it, passed as an `Int` parameter
  (the source defensively handles a negative value, so the model does too).
* The external collaborator `fastpopcnt(width)` (package `bigint-popcnt`)
  is modelled by its contract: the number of set bits of the value inside
  the `width`-bit window.
* `Buffer` is a list of byte values (`List Nat`).
* Throwing code (`union`) returns `Except String`; the error case carries
  the thrown message and leaves the caller's state untouched.
* JavaScript `number` (IEEE double) arithmetic in `size` is idealised over
  the extended reals `EReal`, with `Math.log` sending `0` to `⊥` exactly
  as the double computation sends it to `-Infinity`.
-/

namespace TinyBloom

/-- Modelled from the spec (external collaborator, not in `src/`):
`PopCount(value, width)` — the number of set bits of `v` among bit
positions `[0, width)`.  This is the semantic contract of
`fastpopcnt(BigInt(bits))` from `bigint-popcnt`. -/
def popcnt (width v : Nat) : Nat :=
  ((Finset.range width).filter (fun i => v.testBit i)).card

/-- `const mask64 = ((1n << 64n)-1n)` from `src/index.ts`. -/
def mask64 : Nat := (1 <<< 64) - 1

/-- `function Rotl64(a, n) { return (a << n) | (a >> (64n - n)) }` from
`src/index.ts`.  Note the source does *not* mask the shifted value to 64
bits: on a `bigint` input `a ≥ 2^64` this is not a true 64-bit rotate. -/
def Rotl64 (a n : Nat) : Nat :=
  (a <<< n) ||| (a >>> (64 - n))

/-- `toBufferLE(num, width)`: the `width`-byte little-endian encoding that
the source builds via a hex string (`num.toString(16)`, `padStart`,
`slice`, `Buffer.from(..., 'hex')`, `reverse`).  For `num < 256 ^ width`
— the regime of every call site — the hex dance produces exactly the
little-endian base-256 digits, which is what this recursion computes. -/
def toBufferLE (num width : Nat) : List Nat :=
  match width with
  | 0 => []
  | w + 1 => num % 256 :: toBufferLE (num / 256) w

/-- `toBigIntLE(buf)`: reverse the buffer, read it as big-endian hex —
i.e. interpret `buf` as a little-endian base-256 number (an empty buffer
yields `0`, as the `hex.length === 0` branch does). -/
def toBigIntLE (buf : List Nat) : Nat :=
  buf.foldr (fun b acc => acc * 256 + b) 0

/-- The `FilterComparison` enum of `src/index.ts`. -/
inductive FilterComparison where
  | Incompatible
  | None
  | Equal
  | Larger
  | Smaller
  | Inequal
deriving DecidableEq, Repr

/-- The numeric value each `FilterComparison` enum member carries in the
source (`Incompatible = -0xff`, `None = -1`, `Equal = 0`, `Larger = 1`,
`Smaller = 2`, `Inequal = 3`). -/
def FilterComparison.code : FilterComparison → Int
  | .Incompatible => -0xff
  | .None => -1
  | .Equal => 0
  | .Larger => 1
  | .Smaller => 2
  | .Inequal => 3

/-- The `BloomFilter` class state: `bits`, `k`, and the big-integer bit
vector `filter`.  The `popcnt` member bound in the constructor is modelled
by `popcnt bits` at the use sites. -/
structure BloomFilter where
  bits : Nat
  k : Nat
  filter : Nat
deriving DecidableEq, Repr

/-- `new BloomFilter(bits, k)`: the constructor initialises `filter = 0n`. -/
def emptyFilter (bits k : Nat) : BloomFilter :=
  { bits := bits, k := k, filter := 0 }

/-- The fixed de-correlation constant `0x6740bca37be0516dn` XORed into the
hash in `itemHash`. -/
def xorConst : Nat := 0x6740bca37be0516d

/-- The loop body of `BloomFilter.itemHash`:
`for (let i = 0n; i < _k; ++i) { delta += i; let bit = a % m; o |= 1n << bit; a = (a + delta) & mask64 }`,
with `steps` iterations remaining, loop counter `i`, and accumulator `o`. -/
def itemHashAux (m : Nat) : Nat → Nat → Nat → Nat → Nat → Nat
  | 0, _, _, _, o => o
  | steps + 1, i, a, delta, o =>
    let d := delta + i
    let o' := o ||| (1 <<< (a % m))
    itemHashAux m steps (i + 1) ((a + d) &&& mask64) d o'

/-- `BloomFilter.itemHash(v, bits, k)` from `src/index.ts`, parameterised
by the collaborator hash value `hash = XXH64(buf, 0)`:
negate if negative (`if (a < 0n) a *= -1n`, i.e. `Int.natAbs`), XOR the
constant, set `delta = Rotl64(a, 17) | 1`, then run the `k`-step loop. -/
def itemHash (hash : Int) (bits k : Nat) : Nat :=
  let a := hash.natAbs ^^^ xorConst
  let delta := Rotl64 a 17 ||| 1
  itemHashAux bits k 0 a delta 0

/-- `add(v)`: `this.filter |= BloomFilter.itemHash(v, this.bits, this.k)`. -/
def add (f : BloomFilter) (hash : Int) : BloomFilter :=
  { f with filter := f.filter ||| itemHash hash f.bits f.k }

/-- `test(v)`: `let l = itemHash(v, bits, k); return (this.filter & l) === l`. -/
def test (f : BloomFilter) (hash : Int) : Bool :=
  let l := itemHash hash f.bits f.k
  (f.filter &&& l) == l

/-- The message of the error `union` throws on a parameter mismatch. -/
def parameterMismatchMsg : String :=
  "Cannot join bloomfilters, parameters incompatible."

/-- `union(bloom)`: throws when `(bloom.k, bloom.bits)` differs from
`(this.k, this.bits)`, otherwise `this.filter |= bloom.filter`.  The
`error` case models the thrown exception: the caller's state is the
unchanged `f`. -/
def union (f g : BloomFilter) : Except String BloomFilter :=
  if g.k ≠ f.k ∨ g.bits ≠ f.bits then .error parameterMismatchMsg
  else .ok { f with filter := f.filter ||| g.filter }

/-- `toBuffer()`: the 2-byte little-endian `k` followed by the
`Math.ceil(bits / 8)`-byte little-endian filter state. -/
def toBuffer (f : BloomFilter) : List Nat :=
  toBufferLE f.k 2 ++ toBufferLE f.filter ((f.bits + 7) / 8)

/-- `BloomFilter.fromBuffer(buf)`: `k` from bytes `[0, 2)`, the filter
state from bytes `[2, end)`, and `bits = (buf.byteLength - 2) * 8`. -/
def fromBuffer (buf : List Nat) : BloomFilter :=
  { bits := (buf.length - 2) * 8
    k := toBigIntLE (buf.take 2)
    filter := toBigIntLE (buf.drop 2) }

/-- `Math.log` over the extended reals: `Math.log(0)` is `-Infinity`
(modelled as `⊥`), `Math.log(x)` for `x > 0` is the natural logarithm.
(The `x < 0` NaN case never arises at the call site in `size`.) -/
noncomputable def mathLog (x : ℝ) : EReal :=
  if x = 0 then ⊥ else ((Real.log x : ℝ) : EReal)

/-- `size()`:
`- (this.bits / this.k) * Math.log(1 - (Number(this.popcnt(this.filter)) / this.bits))`,
the estimated cardinality, idealised over the extended reals. -/
noncomputable def size (f : BloomFilter) : EReal :=
  ((-((f.bits : ℝ) / (f.k : ℝ)) : ℝ) : EReal) *
    mathLog (1 - (popcnt f.bits f.filter : ℝ) / (f.bits : ℝ))

/-- `compare(bloom)` from `src/index.ts`: `Incompatible` on a parameter
mismatch, `Equal` on identical bit-vectors, otherwise compare the two
`size()` estimates (`lsize > rsize → Larger`, `lsize < rsize → Smaller`,
else `Inequal`). -/
noncomputable def compare (f g : BloomFilter) : FilterComparison :=
  if g.k ≠ f.k ∨ g.bits ≠ f.bits then .Incompatible
  else if f.filter = g.filter then .Equal
  else if size g < size f then .Larger
  else if size f < size g then .Smaller
  else .Inequal

/-- `Number.MAX_VALUE`, the initial value of `min_m` in
`OptimalParameters`: the largest finite IEEE double, `(2^53 - 1) * 2^971`. -/
noncomputable def maxValue : ℝ := (2 ^ 53 - 1) * 2 ^ 971

/-- The per-`k` cost `curr_m` computed inside `OptimalParameters`:
`(- k * n) / Math.log(1 - Math.pow(fp, 1 / k))`. -/
noncomputable def curr_m (n fp : ℝ) (k : Nat) : ℝ :=
  (-(k : ℝ) * n) / Real.log (1 - fp ^ ((1 : ℝ) / (k : ℝ)))

/-- The result record of `OptimalParameters` (`{ k, bits }`; `bits` is a
JavaScript number, i.e. real-valued). -/
structure OptimalResult where
  k : Nat
  bits : ℝ

/-- The `while (k < 1000)` search loop of `OptimalParameters`: fold over
`k = 1, …, 999` keeping `(min_m, min_k)`, updating on `curr_m < min_m`. -/
noncomputable def optimalFold (n fp : ℝ) : ℝ × Nat :=
  (List.range' 1 999).foldl
    (fun acc k => if curr_m n fp k < acc.1 then (curr_m n fp k, k) else acc)
    (maxValue, 0)

/-- `BloomFilter.OptimalParameters(n, fp = 0.001)`: brute-force search of
`k ∈ [1, 999]` minimising `curr_m`, returning
`{ k: min_k < 1 ? 1 : min_k, bits: min_m < 8 ? 8 : min_m }`. -/
noncomputable def OptimalParameters (n : ℝ) (fp : ℝ := 0.001) : OptimalResult :=
  let r := optimalFold n fp
  { k := if r.2 < 1 then 1 else r.2
    bits := if r.1 < 8 then 8 else r.1 }

/-- Modelled from the spec, §4.1 step 3: `RotateLeft64(a, 17)`, a true
64-bit rotate (for `a < 2^64` this is the 64-bit left rotation by 17). -/
def RotateLeft64 (a n : Nat) : Nat :=
  ((a <<< n) ||| (a >>> (64 - n))) % 2 ^ 64

/-- Modelled from the spec, §4.1 step 4: for step `i` from `0` to `k-1`,
`delta := delta + i`, record bit `a mod bits`, `a := (a + delta) mod 2^64`;
the result is the OR-combined bitmask of the recorded indices. -/
def specIndicesAux (bits : Nat) : Nat → Nat → Nat → Nat → Nat
  | 0, _, _, _ => 0
  | steps + 1, i, a, delta =>
    let d := delta + i
    (1 <<< (a % bits)) ||| specIndicesAux bits steps (i + 1) ((a + d) % 2 ^ 64) d

/-- Modelled from the spec, §4.1: the double-hash index generator
`Indices(item, bits, k)` exactly as the spec words it — `a = Hash64(item, 0)`
negated if negative, XORed with `0x6740BCA37BE0516D`,
`delta = RotateLeft64(a, 17) | 1`, then the `k`-step recording loop. -/
def specIndices (hash : Int) (bits k : Nat) : Nat :=
  let a := hash.natAbs ^^^ xorConst
  let delta := RotateLeft64 a 17 ||| 1
  specIndicesAux bits k 0 a delta

/-- A mutation performed on a filter after construction: an `add` with
some item (identified by its hash), or a `union` with some other filter. -/
inductive Op where
  | addOp (hash : Int)
  | unionOp (g : BloomFilter)

/-- Run one operation on a filter.  A `union` whose parameters mismatch
throws in the source before touching `this.filter`, so the state after
the failed call is the unchanged filter. -/
def applyOp (f : BloomFilter) : Op → BloomFilter
  | .addOp hash => add f hash
  | .unionOp g =>
    match union f g with
    | .error _ => f
    | .ok f' => f'

/-! ### Bit-level helper lemmas -/

lemma land_eq_right_iff {a l : Nat} :
    a &&& l = l ↔ ∀ i, l.testBit i = true → a.testBit i = true := by
  constructor
  · intro h i hi
    have h' := congrArg (fun x => Nat.testBit x i) h
    simp only [Nat.testBit_and, hi, Bool.and_true] at h'
    exact h'
  · intro h
    apply Nat.eq_of_testBit_eq
    intro i
    rw [Nat.testBit_and]
    cases hl : l.testBit i
    · simp
    · simp [h i hl]

lemma popcnt_mono {w a b : Nat}
    (h : ∀ i, a.testBit i = true → b.testBit i = true) :
    popcnt w a ≤ popcnt w b := by
  apply Finset.card_le_card
  intro i hi
  simp only [popcnt, Finset.mem_filter, Finset.mem_range] at hi ⊢
  exact ⟨hi.1, h i hi.2⟩

lemma popcnt_zero (w : Nat) : popcnt w 0 = 0 := by
  simp [popcnt]

lemma popcnt_le_width (w v : Nat) : popcnt w v ≤ w := by
  calc popcnt w v ≤ (Finset.range w).card := Finset.card_filter_le _ _
  _ = w := Finset.card_range w

/-! ### Parameter preservation and monotone growth of the filter state -/

lemma applyOp_params (f : BloomFilter) (op : Op) :
    (applyOp f op).bits = f.bits ∧ (applyOp f op).k = f.k := by
  cases op with
  | addOp h => exact ⟨rfl, rfl⟩
  | unionOp g =>
    simp only [applyOp]
    cases hu : union f g with
    | error e => exact ⟨rfl, rfl⟩
    | ok f' =>
      unfold union at hu
      split at hu
      · exact absurd hu (by simp)
      · rw [Except.ok.injEq] at hu
        subst hu
        exact ⟨rfl, rfl⟩

lemma applyOp_filter_grows (f : BloomFilter) (op : Op) :
    ∀ i, f.filter.testBit i = true → (applyOp f op).filter.testBit i = true := by
  intro i hi
  cases op with
  | addOp h => simp [applyOp, add, Nat.testBit_or, hi]
  | unionOp g =>
    simp only [applyOp]
    cases hu : union f g with
    | error e => exact hi
    | ok f' =>
      unfold union at hu
      split at hu
      · exact absurd hu (by simp)
      · rw [Except.ok.injEq] at hu
        subst hu
        simp [Nat.testBit_or, hi]

lemma foldl_params (ops : List Op) (f : BloomFilter) :
    (List.foldl applyOp f ops).bits = f.bits ∧
      (List.foldl applyOp f ops).k = f.k := by
  induction ops generalizing f with
  | nil => exact ⟨rfl, rfl⟩
  | cons op ops ih =>
    have h1 := applyOp_params f op
    have h2 := ih (applyOp f op)
    simp only [List.foldl_cons]
    exact ⟨h2.1.trans h1.1, h2.2.trans h1.2⟩

lemma foldl_filter_grows (ops : List Op) (f : BloomFilter) :
    ∀ i, f.filter.testBit i = true →
      (List.foldl applyOp f ops).filter.testBit i = true := by
  induction ops generalizing f with
  | nil => exact fun i hi => hi
  | cons op ops ih =>
    intro i hi
    exact ih (applyOp f op) i (applyOp_filter_grows f op i hi)

/-! ### Loop invariants of the double-hash index generator -/

lemma testBit_one_shiftLeft (b j : Nat) : (1 <<< b).testBit j = decide (b = j) := by
  rw [Nat.shiftLeft_eq, one_mul, Nat.testBit_two_pow]

lemma popcnt_or_single_le (m o b : Nat) : popcnt m (o ||| 1 <<< b) ≤ popcnt m o + 1 := by
  have hsub : (Finset.range m).filter (fun i => (o ||| 1 <<< b).testBit i) ⊆
      ((Finset.range m).filter (fun i => o.testBit i)) ∪ {b} := by
    intro i hi
    simp only [Finset.mem_filter, Finset.mem_range, Nat.testBit_or] at hi
    rcases Bool.or_eq_true_iff.mp hi.2 with h | h
    · exact Finset.mem_union_left _ (Finset.mem_filter.mpr ⟨Finset.mem_range.mpr hi.1, h⟩)
    · rw [testBit_one_shiftLeft, decide_eq_true_eq] at h
      exact Finset.mem_union_right _ (Finset.mem_singleton.mpr h.symm)
  calc popcnt m (o ||| 1 <<< b)
      ≤ (((Finset.range m).filter (fun i => o.testBit i)) ∪ {b}).card :=
        Finset.card_le_card hsub
    _ ≤ popcnt m o + 1 := by
        refine le_trans (Finset.card_union_le _ _) ?_
        simp [popcnt]

lemma itemHashAux_testBit_mem (m : Nat) (hm : 0 < m) :
    ∀ steps i a delta o j, (itemHashAux m steps i a delta o).testBit j = true →
      o.testBit j = true ∨ j < m := by
  intro steps
  induction steps with
  | zero =>
    intro i a delta o j h
    exact Or.inl h
  | succ s ih =>
    intro i a delta o j h
    simp only [itemHashAux] at h
    rcases ih _ _ _ _ j h with h' | h'
    · rw [Nat.testBit_or] at h'
      rcases Bool.or_eq_true_iff.mp h' with h'' | h''
      · exact Or.inl h''
      · rw [testBit_one_shiftLeft, decide_eq_true_eq] at h''
        subst h''
        exact Or.inr (Nat.mod_lt _ hm)
    · exact Or.inr h'

lemma itemHashAux_testBit_grows (m : Nat) :
    ∀ steps i a delta o j, o.testBit j = true →
      (itemHashAux m steps i a delta o).testBit j = true := by
  intro steps
  induction steps with
  | zero =>
    intro i a delta o j h
    exact h
  | succ s ih =>
    intro i a delta o j h
    simp only [itemHashAux]
    exact ih _ _ _ _ j (by rw [Nat.testBit_or, h, Bool.true_or])

lemma itemHashAux_popcnt_le (m : Nat) :
    ∀ steps i a delta o, popcnt m (itemHashAux m steps i a delta o) ≤
      popcnt m o + steps := by
  intro steps
  induction steps with
  | zero =>
    intro i a delta o
    exact Nat.le_refl _
  | succ s ih =>
    intro i a delta o
    simp only [itemHashAux]
    calc popcnt m (itemHashAux m s (i + 1) ((a + (delta + i)) &&& mask64)
          (delta + i) (o ||| 1 <<< (a % m)))
        ≤ popcnt m (o ||| 1 <<< (a % m)) + s := ih _ _ _ _
      _ ≤ (popcnt m o + 1) + s := Nat.add_le_add_right (popcnt_or_single_le m o _) s
      _ = popcnt m o + (s + 1) := by omega

/-! ### Claim theorems -/

/-- C1: No false negatives — for every item `x` and every filter with
`bits ≥ 1` and `k ≥ 1`, after `add(x)` the call `test(x)` returns `true`,
and it remains `true` after any further sequence of `add` or (successful)
`union` operations on the same filter. -/
theorem no_false_negatives (f : BloomFilter) (x : Int) (ops : List Op)
    (_hbits : 1 ≤ f.bits) (_hk : 1 ≤ f.k) :
    test (List.foldl applyOp (add f x) ops) x = true := by
  have hparams := foldl_params ops (add f x)
  have hb : (List.foldl applyOp (add f x) ops).bits = f.bits := hparams.1
  have hkk : (List.foldl applyOp (add f x) ops).k = f.k := hparams.2
  have hsub : ∀ i, (itemHash x f.bits f.k).testBit i = true →
      (List.foldl applyOp (add f x) ops).filter.testBit i = true := by
    intro i hi
    apply foldl_filter_grows
    simp [add, Nat.testBit_or, hi]
  have hland : (List.foldl applyOp (add f x) ops).filter &&&
      itemHash x (List.foldl applyOp (add f x) ops).bits
        (List.foldl applyOp (add f x) ops).k =
      itemHash x (List.foldl applyOp (add f x) ops).bits
        (List.foldl applyOp (add f x) ops).k := by
    rw [hb, hkk]
    exact land_eq_right_iff.mpr hsub
  simp only [test, hland, beq_self_eq_true]

/-- Witness for C1 at a concrete filter, item, and operation sequence. -/
theorem no_false_negatives_witness :
    test (List.foldl applyOp (add (emptyFilter 8 2) 5)
      [Op.addOp 7, Op.unionOp (emptyFilter 8 2)]) 5 = true :=
  no_false_negatives (emptyFilter 8 2) 5 [Op.addOp 7, Op.unionOp (emptyFilter 8 2)]
    (by decide) (by decide)

/-- C4: `union(other)` fails with the ParameterMismatch error iff
`(other.bits, other.k)` differs from `(this.bits, this.k)`; on failure the
filter state is unchanged, and otherwise the state becomes
`state ||| other.state`. -/
theorem union_spec (f g : BloomFilter) :
    (union f g = .error parameterMismatchMsg ↔ (g.bits, g.k) ≠ (f.bits, f.k)) ∧
    ((g.bits, g.k) ≠ (f.bits, f.k) → applyOp f (.unionOp g) = f) ∧
    ((g.bits, g.k) = (f.bits, f.k) →
      union f g = .ok { f with filter := f.filter ||| g.filter }) := by
  by_cases hc : g.k ≠ f.k ∨ g.bits ≠ f.bits
  · have hne : (g.bits, g.k) ≠ (f.bits, f.k) := by
      rw [Ne, Prod.mk.injEq]
      tauto
    refine ⟨⟨fun _ => hne, fun _ => ?_⟩, fun _ => ?_, fun h => absurd h hne⟩
    · simp [union, hc]
    · simp [applyOp, union, hc]
  · push_neg at hc
    have heq : (g.bits, g.k) = (f.bits, f.k) := by
      rw [Prod.mk.injEq]
      exact ⟨hc.2, hc.1⟩
    refine ⟨⟨fun h => ?_, fun h => absurd heq h⟩,
      fun h => absurd heq h, fun _ => ?_⟩
    · rw [union, if_neg (by push_neg; exact hc)] at h
      exact absurd h (by simp)
    · rw [union, if_neg (by push_neg; exact hc)]

/-- Witness for C4: a mismatched union fails with the exact message, a
matched union ORs the states. -/
theorem union_spec_witness :
    union (emptyFilter 8 1) (emptyFilter 8 2) = .error parameterMismatchMsg ∧
    union { bits := 8, k := 1, filter := 1 } { bits := 8, k := 1, filter := 2 } =
      .ok { bits := 8, k := 1, filter := 3 } := by
  constructor
  · exact (union_spec (emptyFilter 8 1) (emptyFilter 8 2)).1.mpr (by decide)
  · have h := (union_spec { bits := 8, k := 1, filter := 1 }
      { bits := 8, k := 1, filter := 2 }).2.2 (by decide)
    rw [h]
    rfl

/-- C7: Monotone growth — the state starts all-zero at construction, and
every `add` and every (successful) `union` only sets bits:
`s &&& s' = s` for the prior state `s` and resulting state `s'`, so the
population count of the state is non-decreasing across all operations. -/
theorem monotone_growth (bits k : Nat) (f : BloomFilter) (ops : List Op) :
    (emptyFilter bits k).filter = 0 ∧
    f.filter &&& (List.foldl applyOp f ops).filter = f.filter ∧
    popcnt f.bits f.filter ≤ popcnt f.bits (List.foldl applyOp f ops).filter := by
  refine ⟨rfl, ?_, popcnt_mono (foldl_filter_grows ops f)⟩
  apply Nat.eq_of_testBit_eq
  intro i
  rw [Nat.testBit_and]
  cases hf : f.filter.testBit i
  · simp
  · simp [foldl_filter_grows ops f i hf]

/-- C8: Index-range contract — for every item and all `bits ≥ 1`,
`k ≥ 1`, `itemHash` returns a bitmask strictly below `2 ^ bits` (every
set bit lies in `[0, bits)`), with at least `1` and at most `k` set bits
(colliding steps are not deduplicated; they leave the same bit set once). -/
theorem itemHash_index_range (hash : Int) (bits k : Nat)
    (hb : 1 ≤ bits) (hk : 1 ≤ k) :
    itemHash hash bits k < 2 ^ bits ∧
    1 ≤ popcnt bits (itemHash hash bits k) ∧
    popcnt bits (itemHash hash bits k) ≤ k := by
  have hmem := itemHashAux_testBit_mem bits hb
  refine ⟨?_, ?_, ?_⟩
  · by_contra hge
    push_neg at hge
    obtain ⟨i, hi_ge, hi⟩ := Nat.ge_two_pow_implies_high_bit_true hge
    rcases hmem _ _ _ _ _ _ hi with h0 | hlt
    · rw [Nat.zero_testBit] at h0
      exact Bool.false_ne_true h0
    · omega
  · obtain ⟨s, rfl⟩ : ∃ s, k = s + 1 := ⟨k - 1, by omega⟩
    have hbit : (itemHash hash bits (s + 1)).testBit
        ((hash.natAbs ^^^ xorConst) % bits) = true := by
      show (itemHashAux bits (s + 1) 0 (hash.natAbs ^^^ xorConst)
        (Rotl64 (hash.natAbs ^^^ xorConst) 17 ||| 1) 0).testBit
          ((hash.natAbs ^^^ xorConst) % bits) = true
      simp only [itemHashAux]
      apply itemHashAux_testBit_grows
      rw [Nat.testBit_or, testBit_one_shiftLeft]
      simp
    exact Finset.card_pos.mpr
      ⟨_, Finset.mem_filter.mpr ⟨Finset.mem_range.mpr (Nat.mod_lt _ hb), hbit⟩⟩
  · have h := itemHashAux_popcnt_le bits k 0 (hash.natAbs ^^^ xorConst)
      (Rotl64 (hash.natAbs ^^^ xorConst) 17 ||| 1) 0
    simpa [itemHash, popcnt_zero] using h

/-- Witness for C8 at a concrete hash value and parameters. -/
theorem itemHash_index_range_witness :
    itemHash 3 8 2 < 2 ^ 8 ∧ 1 ≤ popcnt 8 (itemHash 3 8 2) ∧
      popcnt 8 (itemHash 3 8 2) ≤ 2 :=
  itemHash_index_range 3 8 2 (by decide) (by decide)

/-! ### Equivalence of `itemHash` with the spec's double-hash scheme -/

lemma land_mask64 (x : Nat) : x &&& mask64 = x % 2 ^ 64 := by
  have h : mask64 = 2 ^ 64 - 1 := by
    rw [mask64, Nat.shiftLeft_eq, one_mul]
  rw [h, Nat.and_pow_two_sub_one_eq_mod]

lemma lor_mod_two_pow (x y n : Nat) :
    (x ||| y) % 2 ^ n = x % 2 ^ n ||| y % 2 ^ n := by
  apply Nat.eq_of_testBit_eq
  intro i
  simp only [Nat.testBit_mod_two_pow, Nat.testBit_or]
  rw [Bool.and_or_distrib_left]

lemma itemHashAux_eq_specIndicesAux (m : Nat) :
    ∀ steps i a d d' o, d % 2 ^ 64 = d' % 2 ^ 64 →
      itemHashAux m steps i a d o = o ||| specIndicesAux m steps i a d' := by
  intro steps
  induction steps with
  | zero =>
    intro i a d d' o _
    simp [itemHashAux, specIndicesAux]
  | succ s ih =>
    intro i a d d' o h
    simp only [itemHashAux, specIndicesAux]
    have hd : (d + i) % 2 ^ 64 = (d' + i) % 2 ^ 64 := by
      rw [Nat.add_mod, h, ← Nat.add_mod]
    have ha : (a + (d + i)) &&& mask64 = (a + (d' + i)) % 2 ^ 64 := by
      rw [land_mask64, Nat.add_mod, hd, ← Nat.add_mod]
    rw [ha, ih _ _ _ _ _ hd, ← Nat.or_assoc]

/-- C2: `itemHash(v, bits, k)` implements exactly the double-hash scheme
of spec §4.1 — `a = Hash64(v, 0)` negated if negative, XORed with
`0x6740BCA37BE0516D`, `delta = RotateLeft64(a, 17) | 1`, then `k` steps
of `delta := delta + i`, record `a mod bits`, `a := (a + delta) mod 2^64`,
the result being the OR-combined bitmask of the recorded indices.  The
hypothesis is the `Hash64` collaborator contract: its output is an
unsigned 64-bit value. -/
theorem itemHash_implements_spec (hash : Int) (bits k : Nat)
    (_h64 : hash.natAbs < 2 ^ 64) :
    itemHash hash bits k = specIndices hash bits k := by
  have hdelta : (Rotl64 (hash.natAbs ^^^ xorConst) 17 ||| 1) % 2 ^ 64 =
      (RotateLeft64 (hash.natAbs ^^^ xorConst) 17 ||| 1) % 2 ^ 64 := by
    show _ = (Rotl64 (hash.natAbs ^^^ xorConst) 17 % 2 ^ 64 ||| 1) % 2 ^ 64
    rw [lor_mod_two_pow, lor_mod_two_pow _ 1, Nat.mod_mod]
  have h := itemHashAux_eq_specIndicesAux bits k 0 (hash.natAbs ^^^ xorConst)
    (Rotl64 (hash.natAbs ^^^ xorConst) 17 ||| 1)
    (RotateLeft64 (hash.natAbs ^^^ xorConst) 17 ||| 1) 0 hdelta
  simpa [itemHash, specIndices] using h

/-- Witness for C2 at a concrete in-range hash value. -/
theorem itemHash_implements_spec_witness :
    itemHash 3 8 2 = specIndices 3 8 2 :=
  itemHash_implements_spec 3 8 2 (by decide)

/-! ### Serialization round trip -/

lemma toBufferLE_length (num width : Nat) : (toBufferLE num width).length = width := by
  induction width generalizing num with
  | zero => rfl
  | succ w ih => simp [toBufferLE, ih]

lemma toBigIntLE_toBufferLE {num width : Nat} (h : num < 256 ^ width) :
    toBigIntLE (toBufferLE num width) = num := by
  induction width generalizing num with
  | zero =>
    simp only [pow_zero, Nat.lt_one_iff] at h
    simp [toBufferLE, toBigIntLE, h]
  | succ w ih =>
    have hdiv : num / 256 < 256 ^ w := by
      rw [Nat.div_lt_iff_lt_mul (by norm_num)]
      calc num < 256 ^ (w + 1) := h
        _ = 256 ^ w * 256 := by ring
    show toBigIntLE (num % 256 :: toBufferLE (num / 256) w) = num
    show toBigIntLE (toBufferLE (num / 256) w) * 256 + num % 256 = num
    rw [ih hdiv]
    omega

/-- C3: Serialization round trip — for every filter whose `bits` is a
positive multiple of 8, whose `k` is below `2^16`, and whose state is
below `2^bits`, `fromBuffer(toBuffer(F))` has identical `k`, `bits`
reconstructed as `(bufferLength - 2) * 8` equal to `F.bits`, and an
identical bit-vector. -/
theorem serialization_round_trip (f : BloomFilter) (w : Nat)
    (hw : f.bits = 8 * w) (hw1 : 1 ≤ w) (hk : f.k < 2 ^ 16)
    (hf : f.filter < 2 ^ f.bits) :
    fromBuffer (toBuffer f) = f := by
  obtain ⟨bits, k, filt⟩ := f
  simp only at hw hk hf
  have hceil : (bits + 7) / 8 = w := by omega
  have hlen2 : (toBufferLE k 2).length = 2 := toBufferLE_length _ _
  have htake : (toBuffer ⟨bits, k, filt⟩).take 2 = toBufferLE k 2 := by
    rw [toBuffer]
    exact List.take_left' hlen2
  have hdrop : (toBuffer ⟨bits, k, filt⟩).drop 2 = toBufferLE filt ((bits + 7) / 8) := by
    rw [toBuffer]
    exact List.drop_left' hlen2
  have hlen : (toBuffer ⟨bits, k, filt⟩).length = 2 + w := by
    rw [toBuffer, List.length_append, hlen2, toBufferLE_length, hceil]
  simp only [fromBuffer, BloomFilter.mk.injEq]
  refine ⟨?_, ?_, ?_⟩
  · rw [hlen]
    omega
  · rw [htake]
    apply toBigIntLE_toBufferLE
    calc k < 2 ^ 16 := hk
      _ = 256 ^ 2 := by norm_num
  · rw [hdrop, hceil]
    apply toBigIntLE_toBufferLE
    calc filt < 2 ^ bits := hf
      _ = 256 ^ w := by rw [hw, pow_mul]; norm_num

/-- Witness for C3 at a concrete filter. -/
theorem serialization_round_trip_witness :
    fromBuffer (toBuffer { bits := 16, k := 3, filter := 513 }) =
      { bits := 16, k := 3, filter := 513 } :=
  serialization_round_trip { bits := 16, k := 3, filter := 513 } 2
    (by decide) (by decide) (by decide) (by decide)

/-! ### Size estimator monotonicity and compare semantics -/

lemma popcnt_width_zero (v : Nat) : popcnt 0 v = 0 := by
  simp [popcnt]

lemma size_mono {f g : BloomFilter} (hb : g.bits = f.bits) (hkk : g.k = f.k)
    (hsub : ∀ i, g.filter.testBit i = true → f.filter.testBit i = true) :
    size g ≤ size f := by
  rw [size, size, hb, hkk]
  rcases Nat.eq_zero_or_pos f.bits with hB | hB
  · rw [hB]
    simp [popcnt]
  · have hp : (popcnt f.bits g.filter : ℝ) ≤ (popcnt f.bits f.filter : ℝ) := by
      exact_mod_cast popcnt_mono hsub
    have hpfB : (popcnt f.bits f.filter : ℝ) ≤ (f.bits : ℝ) := by
      exact_mod_cast popcnt_le_width f.bits f.filter
    have hBpos : (0 : ℝ) < (f.bits : ℝ) := by exact_mod_cast hB
    have hxf_nonneg : (0 : ℝ) ≤ 1 - (popcnt f.bits f.filter : ℝ) / (f.bits : ℝ) := by
      have h1 : (popcnt f.bits f.filter : ℝ) / (f.bits : ℝ) ≤ 1 :=
        (div_le_one hBpos).mpr hpfB
      linarith
    have hxle : 1 - (popcnt f.bits f.filter : ℝ) / (f.bits : ℝ) ≤
        1 - (popcnt f.bits g.filter : ℝ) / (f.bits : ℝ) := by
      have h1 : (popcnt f.bits g.filter : ℝ) / (f.bits : ℝ) ≤
          (popcnt f.bits f.filter : ℝ) / (f.bits : ℝ) :=
        (div_le_div_iff_of_pos_right hBpos).mpr hp
      linarith
    by_cases hxf : 1 - (popcnt f.bits f.filter : ℝ) / (f.bits : ℝ) = 0
    · simp only [mathLog]
      rw [if_pos hxf]
      rcases Nat.eq_zero_or_pos f.k with hK | hK
      · have hcz : -((f.bits : ℝ) / (f.k : ℝ)) = 0 := by
          rw [hK]
          simp
        rw [hcz]
        simp
      · have hcneg : -((f.bits : ℝ) / (f.k : ℝ)) < 0 := by
          have hKpos : (0 : ℝ) < (f.k : ℝ) := by exact_mod_cast hK
          have := div_pos hBpos hKpos
          linarith
        rw [EReal.coe_mul_bot_of_neg hcneg]
        exact le_top
    · have hxfpos : 0 < 1 - (popcnt f.bits f.filter : ℝ) / (f.bits : ℝ) :=
        lt_of_le_of_ne hxf_nonneg (Ne.symm hxf)
      have hxgpos : 0 < 1 - (popcnt f.bits g.filter : ℝ) / (f.bits : ℝ) :=
        lt_of_lt_of_le hxfpos hxle
      simp only [mathLog]
      rw [if_neg hxf, if_neg (ne_of_gt hxgpos)]
      rw [← EReal.coe_mul, ← EReal.coe_mul, EReal.coe_le_coe_iff]
      apply mul_le_mul_of_nonpos_left
      · exact (Real.log_le_log_iff hxfpos hxgpos).mpr hxle
      · have h1 : (0 : ℝ) ≤ (f.bits : ℝ) / (f.k : ℝ) := by positivity
        linarith

/-- C5: Compare semantics — `compare` returns `Incompatible` iff the
`(bits, k)` parameters differ; with equal parameters, `Equal` iff the
bit-vectors are identical; with distinct bit-vectors, `Larger` iff this
filter's estimated size is strictly greater, `Smaller` iff strictly
less, and `Inequal` iff the estimates are equal. -/
theorem compare_spec (f g : BloomFilter) :
    (compare f g = .Incompatible ↔ (g.bits, g.k) ≠ (f.bits, f.k)) ∧
    ((g.bits, g.k) = (f.bits, f.k) →
      ((compare f g = .Equal ↔ f.filter = g.filter) ∧
        (f.filter ≠ g.filter →
          ((compare f g = .Larger ↔ size g < size f) ∧
           (compare f g = .Smaller ↔ size f < size g) ∧
           (compare f g = .Inequal ↔ size f = size g))))) := by
  by_cases hc : g.k ≠ f.k ∨ g.bits ≠ f.bits
  · have hne : (g.bits, g.k) ≠ (f.bits, f.k) := by
      rw [Ne, Prod.mk.injEq]
      tauto
    have hcmp : compare f g = .Incompatible := by
      unfold compare
      rw [if_pos hc]
    exact ⟨⟨fun _ => hne, fun _ => hcmp⟩, fun h => absurd h hne⟩
  · push_neg at hc
    have heqp : (g.bits, g.k) = (f.bits, f.k) := by
      rw [Prod.mk.injEq]
      exact ⟨hc.2, hc.1⟩
    have hcond : ¬(g.k ≠ f.k ∨ g.bits ≠ f.bits) := by
      push_neg
      exact hc
    refine ⟨⟨fun h => ?_, fun h => absurd heqp h⟩, fun _ => ?_⟩
    · unfold compare at h
      rw [if_neg hcond] at h
      split at h
      · exact FilterComparison.noConfusion h
      · split at h
        · exact FilterComparison.noConfusion h
        · split at h
          · exact FilterComparison.noConfusion h
          · exact FilterComparison.noConfusion h
    · by_cases heq : f.filter = g.filter
      · have hcmp : compare f g = .Equal := by
          unfold compare
          rw [if_neg hcond, if_pos heq]
        exact ⟨⟨fun _ => heq, fun _ => hcmp⟩, fun hne => absurd heq hne⟩
      · have hbase : compare f g = if size g < size f then .Larger
            else if size f < size g then .Smaller else .Inequal := by
          unfold compare
          rw [if_neg hcond, if_neg heq]
        refine ⟨⟨fun h => ?_, fun h => absurd h heq⟩, fun _ => ?_⟩
        · rw [hbase] at h
          split at h
          · exact FilterComparison.noConfusion h
          · split at h
            · exact FilterComparison.noConfusion h
            · exact FilterComparison.noConfusion h
        · by_cases hlt : size g < size f
          · have hcmp : compare f g = .Larger := by
              rw [hbase, if_pos hlt]
            refine ⟨⟨fun _ => hlt, fun _ => hcmp⟩,
              ⟨fun h => ?_, fun h => (lt_asymm hlt h).elim⟩,
              ⟨fun h => ?_, fun h => absurd h (ne_of_gt hlt)⟩⟩
            · rw [hcmp] at h
              exact FilterComparison.noConfusion h
            · rw [hcmp] at h
              exact FilterComparison.noConfusion h
          · by_cases hlt2 : size f < size g
            · have hcmp : compare f g = .Smaller := by
                rw [hbase, if_neg hlt, if_pos hlt2]
              refine ⟨⟨fun h => ?_, fun h => (hlt h).elim⟩,
                ⟨fun _ => hlt2, fun _ => hcmp⟩,
                ⟨fun h => ?_, fun h => absurd h (ne_of_lt hlt2)⟩⟩
              · rw [hcmp] at h
                exact FilterComparison.noConfusion h
              · rw [hcmp] at h
                exact FilterComparison.noConfusion h
            · have hsz : size f = size g :=
                le_antisymm (not_lt.mp hlt) (not_lt.mp hlt2)
              have hcmp : compare f g = .Inequal := by
                rw [hbase, if_neg hlt, if_neg hlt2]
              refine ⟨⟨fun h => ?_, fun h => (hlt h).elim⟩,
                ⟨fun h => ?_, fun h => (hlt2 h).elim⟩,
                ⟨fun _ => hsz, fun _ => hcmp⟩⟩
              · rw [hcmp] at h
                exact FilterComparison.noConfusion h
              · rw [hcmp] at h
                exact FilterComparison.noConfusion h

/-- Witness for C5: two same-parameter filters with distinct bit-vectors
but equal popcounts compare as `Inequal`. -/
theorem compare_spec_witness :
    compare { bits := 8, k := 1, filter := 1 } { bits := 8, k := 1, filter := 2 } =
      .Inequal := by
  have h1 : popcnt 8 1 = 1 := by decide
  have h2 : popcnt 8 2 = 1 := by decide
  have hsz : size { bits := 8, k := 1, filter := 1 } =
      size { bits := 8, k := 1, filter := 2 } := by
    simp [size, h1, h2]
  exact ((((compare_spec { bits := 8, k := 1, filter := 1 }
    { bits := 8, k := 1, filter := 2 }).2 (by decide)).2 (by decide)).2.2).mpr hsz

/-- C9: Superset comparison never yields `Smaller` — for filters with
identical `(bits, k)` where this filter's bit-vector is a bitwise
superset of the other's, `compare` never returns `Smaller`, and when the
bit-vectors moreover differ it returns `Larger` or, on an estimator tie,
`Inequal`. -/
theorem superset_compare (f g : BloomFilter)
    (hb : g.bits = f.bits) (hkk : g.k = f.k)
    (hsup : g.filter ||| f.filter = f.filter) :
    compare f g ≠ .Smaller ∧
    (f.filter ≠ g.filter →
      (compare f g = .Larger ∨ compare f g = .Inequal)) := by
  have hsub : ∀ i, g.filter.testBit i = true → f.filter.testBit i = true := by
    intro i hi
    have h := congrArg (fun x => Nat.testBit x i) hsup
    simp only [Nat.testBit_or, hi, Bool.true_or] at h
    exact h.symm
  have hle : size g ≤ size f := size_mono hb hkk hsub
  have hcond : ¬(g.k ≠ f.k ∨ g.bits ≠ f.bits) := by
    push_neg
    exact ⟨hkk, hb⟩
  by_cases heq : f.filter = g.filter
  · have hcmp : compare f g = .Equal := by
      unfold compare
      rw [if_neg hcond, if_pos heq]
    exact ⟨by rw [hcmp]; exact fun h => FilterComparison.noConfusion h,
      fun hne => absurd heq hne⟩
  · have hbase : compare f g = if size g < size f then .Larger
        else if size f < size g then .Smaller else .Inequal := by
      unfold compare
      rw [if_neg hcond, if_neg heq]
    by_cases hlt : size g < size f
    · have hcmp : compare f g = .Larger := by
        rw [hbase, if_pos hlt]
      exact ⟨by rw [hcmp]; exact fun h => FilterComparison.noConfusion h,
        fun _ => Or.inl hcmp⟩
    · have hcmp : compare f g = .Inequal := by
        rw [hbase, if_neg hlt, if_neg (not_lt.mpr hle)]
      exact ⟨by rw [hcmp]; exact fun h => FilterComparison.noConfusion h,
        fun _ => Or.inr hcmp⟩

/-- Witness for C9: a strict bitwise superset with equal parameters does
not compare as `Smaller`. -/
theorem superset_compare_witness :
    compare { bits := 8, k := 1, filter := 3 } { bits := 8, k := 1, filter := 1 } ≠
      .Smaller :=
  (superset_compare { bits := 8, k := 1, filter := 3 }
    { bits := 8, k := 1, filter := 1 } rfl rfl (by decide)).1

/-- C10: `compare` always returns one of `Incompatible`, `Equal`,
`Larger`, `Smaller`, `Inequal` — the `FilterComparison.None` variant
(numeric value `-1`) is never returned. -/
theorem compare_ne_none (f g : BloomFilter) :
    compare f g ≠ FilterComparison.None := by
  unfold compare
  split
  · exact fun h => FilterComparison.noConfusion h
  split
  · exact fun h => FilterComparison.noConfusion h
  split
  · exact fun h => FilterComparison.noConfusion h
  split
  · exact fun h => FilterComparison.noConfusion h
  · exact fun h => FilterComparison.noConfusion h

/-! ### The parameter optimizer's search loop -/

lemma foldl_argmin (m : Nat → ℝ) :
    ∀ (l : List Nat) (M : ℝ) (k0 : Nat) (p : ℝ × Nat),
      List.foldl (fun acc k => if m k < acc.1 then (m k, k) else acc) (M, k0) l = p →
      (p = (M, k0) ∧ ∀ j ∈ l, M ≤ m j) ∨
      (p.2 ∈ l ∧ p.1 = m p.2 ∧ p.1 ≤ M ∧ ∀ j ∈ l, p.1 ≤ m j) := by
  intro l
  induction l with
  | nil =>
    intro M k0 p hp
    exact Or.inl ⟨hp.symm, by simp⟩
  | cons x xs ih =>
    intro M k0 p hp
    rw [List.foldl_cons] at hp
    by_cases hx : m x < M
    · rw [if_pos hx] at hp
      rcases ih (m x) x p hp with ⟨hpe, hall⟩ | ⟨hmem, hval, hle, hall⟩
      · refine Or.inr ?_
        rw [hpe]
        refine ⟨List.mem_cons_self x xs, rfl, le_of_lt hx, ?_⟩
        intro j hj
        rcases List.mem_cons.mp hj with rfl | hj'
        · exact le_refl _
        · exact hall j hj'
      · refine Or.inr ⟨List.mem_cons_of_mem x hmem, hval,
          le_trans hle (le_of_lt hx), ?_⟩
        intro j hj
        rcases List.mem_cons.mp hj with rfl | hj'
        · exact hle
        · exact hall j hj'
    · rw [if_neg hx] at hp
      rcases ih M k0 p hp with ⟨hpe, hall⟩ | ⟨hmem, hval, hle, hall⟩
      · refine Or.inl ⟨hpe, ?_⟩
        intro j hj
        rcases List.mem_cons.mp hj with rfl | hj'
        · exact not_lt.mp hx
        · exact hall j hj'
      · refine Or.inr ⟨List.mem_cons_of_mem x hmem, hval, hle, ?_⟩
        intro j hj
        rcases List.mem_cons.mp hj with rfl | hj'
        · exact le_trans hle (not_lt.mp hx)
        · exact hall j hj'

/-- C6: `OptimalParameters(n, fp = 0.001)` brute-force searches integer
`k` from 1 to 999 inclusive, computing
`m(k) = (-k*n) / ln(1 - fp^(1/k))`; it returns the `k` minimising `m(k)`
(at least 1), together with the minimal `m` as `bits`, floored at 8 when
below 8.  The hypothesis states that some `k` in the range beats the
`Number.MAX_VALUE` initialiser, i.e. the search is non-degenerate. -/
theorem optimalParameters_spec (n fp : ℝ)
    (hex : ∃ j ∈ List.range' 1 999, curr_m n fp j < maxValue) :
    1 ≤ (OptimalParameters n fp).k ∧
    (OptimalParameters n fp).k ≤ 999 ∧
    (∀ j, 1 ≤ j → j ≤ 999 →
      curr_m n fp (OptimalParameters n fp).k ≤ curr_m n fp j) ∧
    (OptimalParameters n fp).bits = max 8 (curr_m n fp (OptimalParameters n fp).k) := by
  obtain ⟨j0, hj0mem, hj0⟩ := hex
  rcases foldl_argmin (curr_m n fp) (List.range' 1 999) maxValue 0
      (optimalFold n fp) rfl with ⟨_, hall⟩ | ⟨hmem, hval, _, hall⟩
  · exact absurd hj0 (not_lt.mpr (hall j0 hj0mem))
  · have hrange : 1 ≤ (optimalFold n fp).2 ∧ (optimalFold n fp).2 < 1 + 999 :=
      List.mem_range'_1.mp hmem
    have hknotlt : ¬((optimalFold n fp).2 < 1) := by omega
    have hk : (OptimalParameters n fp).k = (optimalFold n fp).2 := by
      simp only [OptimalParameters]
      rw [if_neg hknotlt]
    refine ⟨?_, ?_, ?_, ?_⟩
    · rw [hk]
      exact hrange.1
    · rw [hk]
      omega
    · intro j h1 h2
      rw [hk, ← hval]
      exact hall j (List.mem_range'_1.mpr ⟨h1, by omega⟩)
    · have hbits : (OptimalParameters n fp).bits =
          if (optimalFold n fp).1 < 8 then (8 : ℝ) else (optimalFold n fp).1 := by
        simp only [OptimalParameters]
      rw [hbits, hk, ← hval]
      by_cases h8 : (optimalFold n fp).1 < 8
      · rw [if_pos h8, max_eq_left (le_of_lt h8)]
      · rw [if_neg h8, max_eq_right (not_lt.mp h8)]

/-- Witness for C6 with `n = 0`, `fp = 0`: every `curr_m` is `0`, which
beats `Number.MAX_VALUE`, so the returned `k` is at least 1. -/
theorem optimalParameters_spec_witness : 1 ≤ (OptimalParameters 0 0).k := by
  have hcm : curr_m 0 0 1 = 0 := by
    simp [curr_m]
  have hmv : (0 : ℝ) < maxValue := by
    rw [maxValue]
    norm_num
  exact (optimalParameters_spec 0 0
    ⟨1, List.mem_range'_1.mpr ⟨le_refl 1, by omega⟩, by rw [hcm]; exact hmv⟩).1

/-- Witness for C10 at a concrete pair of filters. -/
theorem compare_ne_none_witness :
    compare (emptyFilter 8 2) (emptyFilter 16 4) ≠ FilterComparison.None :=
  compare_ne_none (emptyFilter 8 2) (emptyFilter 16 4)

end TinyBloom
